import Mathlib

/-!
Shallow embedding of src/src/finite_field.rs: arithmetic over the prime
field with modulus 2^32 - 2^20 + 1, implemented in the source over u32
values, with u64 intermediates in multiplication and i32 Bezout
coefficients in the extended Euclidean modular inverse.  Machine integers
are modelled as Nat (unsigned) and Int (signed), with explicit reductions
modulo 2^32 and 2^64 wherever the source relies on fixed width behaviour.
A field element is represented by its stored u32 value, a Nat.
-/

namespace Prio

/-- Modulus for the field, an FFT friendly prime: 2^32 - 2^20 + 1
(constant MODULUS of the source). -/
def MODULUS : Nat := 4293918721

/-- Generator for the multiplicative subgroup (constant GENERATOR). -/
def GENERATOR : Nat := 3925978153

/-- Number of primitive roots, 1 <<< 20 (constant N_ROOTS). -/
def N_ROOTS : Nat := 1048576

/-- Number of values of u32, 2^32. -/
def U32 : Nat := 4294967296

/-- Number of values of u64, 2^64. -/
def U64 : Nat := 18446744073709551616

/-- Wrapping u32 addition. -/
def add32 (x y : Nat) : Nat := (x + y) % U32

/-- Wrapping u32 subtraction (exact for arguments below 2^32). -/
def sub32 (x y : Nat) : Nat := (x + U32 - y) % U32

/-- Normalisation of an integer to the i32 value with the same low 32
bits: the result of a wrapping 32 bit signed operation. -/
def wrap32 (z : Int) : Int := (z + 2147483648) % 4294967296 - 2147483648

/-- The cast q as i32 of a u32 value q: reinterpret the bits. -/
def u32AsI32 (q : Nat) : Int := wrap32 (q : Int)

/-- The cast x as u32 of an i32 value x: reinterpret the bits. -/
def i32AsU32 (z : Int) : Nat := (z % 4294967296).toNat

/-- Range of the i32 type. -/
def i32InRange (z : Int) : Prop := -2147483648 ≤ z ∧ z ≤ 2147483647

namespace Field

/-- impl std::ops::Sub for Field: if l >= r then l - r
else MODULUS - r + l, all in u32 arithmetic. -/
def sub (l r : Nat) : Nat := if r ≤ l then l - r else add32 (sub32 MODULUS r) l

/-- impl std::ops::Add for Field: self - Field(MODULUS - rhs.0). -/
def add (a b : Nat) : Nat := sub a (sub32 MODULUS b)

/-- impl std::ops::Mul for Field: widen both operands to u64, multiply
(wrapping at 2^64), reduce mod MODULUS, narrow back to u32. -/
def mul (a b : Nat) : Nat := a * b % U64 % MODULUS

/-- Loop of Field::pow (repeated squaring).  One recursive step performs
either one iteration of the inner even-stripping loop (square the base,
halve the exponent) or the odd step (decrement the exponent, multiply the
result accumulator by the base), exactly as the source nest of while
loops does. -/
def powAux (base exp result : Nat) : Nat :=
  if h : exp = 0 then result
  else if exp % 2 = 0 then powAux (mul base base) (exp / 2) result
  else powAux base (exp - 1) (mul result base)
termination_by exp
decreasing_by
  all_goals omega

/-- Field::pow: modular exponentiation with result accumulator starting
at Field(1). -/
def pow (a e : Nat) : Nat := powAux a e 1

/-- Loop of Field::inv (extended Euclidean).  State at the top of the
while loop of the source: coefficients x0 x1 (i32), remainders a1 a2
(u32) and the quotient q of the previous iteration (u32).  The body
computes x2 = x0 - (q as i32) * x1 in wrapping i32 arithmetic, shifts
the pairs, and computes the new quotient q = a0 / a1 and the new
remainder a2 = a0 - q * a1 in u32 arithmetic.  Returns the final pair
(x1, a1). -/
def invLoop (x0 x1 : Int) (a1 a2 q : Nat) : Int × Nat :=
  if h : a2 = 0 then (x1, a1)
  else invLoop x1 (wrap32 (x0 - wrap32 (u32AsI32 q * x1))) a2 (a1 - a1 / a2 * a2) (a1 / a2)
termination_by a2
decreasing_by
  have h1 := Nat.div_add_mod a1 a2
  have h2 := Nat.mod_lt a1 (Nat.pos_of_ne_zero h)
  have h3 : a1 / a2 * a2 = a2 * (a1 / a2) := Nat.mul_comm _ _
  omega

/-- Field::inv: run the extended Euclidean loop from x1 = 1, a1 = self.0,
x0 = 0, a2 = MODULUS, q = 0; if the final coefficient x1 is negative,
return MODULUS.overflowing_add(x1 as u32).0, else x1 as u32. -/
def inv (a : Nat) : Nat :=
  if (invLoop 0 1 a MODULUS 0).1 < 0 then
    add32 MODULUS (i32AsU32 (invLoop 0 1 a MODULUS 0).1)
  else
    (invLoop 0 1 a MODULUS 0).1.toNat

/-- impl std::ops::Div for Field: self * rhs.inv(). -/
def div (a b : Nat) : Nat := mul a (inv b)

/-- impl From of u32 for Field: Field(x % MODULUS). -/
def fromU32 (x : Nat) : Nat := x % MODULUS

/-- impl From of Field for u32: return the stored value x.0. -/
def toU32 (x : Nat) : Nat := x

/-- impl PartialEq of u32 for Field: self.0 == rhs, with no reduction of
the right hand side. -/
def eqU32 (f x : Nat) : Bool := f == x

end Field

/-!
Primality of the modulus, via a Pratt / Lucas certificate: 19 is a
primitive root modulo MODULUS and MODULUS - 1 = 2^20 * 3^2 * 5 * 7 * 13.
powModF is a fuel driven modular exponentiation that the kernel can
evaluate on concrete inputs.
-/

/-- Modular exponentiation by repeated squaring, with explicit fuel so
that the recursion is structural (fuel 64 covers any exponent below
2^64). -/
def powModF : Nat → Nat → Nat → Nat → Nat
  | 0, _, _, n => 1 % n
  | f+1, a, e, n =>
    if e = 0 then 1 % n
    else if e % 2 = 0 then powModF f (a * a % n) (e / 2) n
    else powModF f (a * a % n) (e / 2) n * a % n

lemma powModF_spec (f : Nat) : ∀ e, e < 2 ^ f → ∀ a n : Nat, powModF f a e n = a ^ e % n := by
  induction f with
  | zero =>
    intro e he a n
    have h0 : e = 0 := by omega
    subst h0
    simp [powModF]
  | succ f ih =>
    intro e he a n
    by_cases h0 : e = 0
    · subst h0; simp [powModF]
    · have hdiv : e / 2 < 2 ^ f := by
        have h2f : 2 ^ (f + 1) = 2 * 2 ^ f := by ring
        omega
      have hr := ih (e / 2) hdiv (a * a % n) n
      by_cases hpar : e % 2 = 0
      · have h2 : 2 * (e / 2) = e := by omega
        simp only [powModF, if_neg h0, if_pos hpar]
        rw [hr, ← Nat.pow_mod, ← pow_two, ← pow_mul, h2]
      · have h2 : 2 * (e / 2) + 1 = e := by omega
        simp only [powModF, if_neg h0, if_neg hpar]
        rw [hr, Nat.mod_mul_mod, Nat.mul_mod, ← Nat.pow_mod, ← Nat.mul_mod,
          ← pow_two, ← pow_mul, ← pow_succ, h2]

lemma zmod_pow_eq (n a e : Nat) (he : e < 2 ^ 64) :
    ((a : ZMod n)) ^ e = ((powModF 64 a e n : Nat) : ZMod n) := by
  rw [powModF_spec 64 e he a n, ZMod.natCast_mod, Nat.cast_pow]

lemma modulus_prime : Nat.Prime MODULUS := by
  have h1 : MODULUS - 1 = 2 ^ 20 * 3 ^ 2 * 5 * 7 * 13 := by decide
  apply lucas_primality MODULUS ((19 : Nat) : ZMod MODULUS)
  · rw [zmod_pow_eq MODULUS 19 (MODULUS - 1) (by decide)]
    have hv : powModF 64 19 (MODULUS - 1) MODULUS = 1 % MODULUS := by decide
    rw [hv, ZMod.natCast_mod, Nat.cast_one]
  · intro q hq hdvd
    have hmem : q = 2 ∨ q = 3 ∨ q = 5 ∨ q = 7 ∨ q = 13 := by
      rw [h1] at hdvd
      rcases (Nat.Prime.dvd_mul hq).mp hdvd with h | h
      · rcases (Nat.Prime.dvd_mul hq).mp h with h | h
        · rcases (Nat.Prime.dvd_mul hq).mp h with h | h
          · rcases (Nat.Prime.dvd_mul hq).mp h with h | h
            · left
              exact (Nat.prime_dvd_prime_iff_eq hq (by norm_num)).mp (hq.dvd_of_dvd_pow h)
            · right; left
              exact (Nat.prime_dvd_prime_iff_eq hq (by norm_num)).mp (hq.dvd_of_dvd_pow h)
          · right; right; left
            exact (Nat.prime_dvd_prime_iff_eq hq (by norm_num)).mp h
        · right; right; right; left
          exact (Nat.prime_dvd_prime_iff_eq hq (by norm_num)).mp h
      · right; right; right; right
        exact (Nat.prime_dvd_prime_iff_eq hq (by norm_num)).mp h
    intro hcon
    have he64 : (MODULUS - 1) / q < 2 ^ 64 := lt_of_le_of_lt (Nat.div_le_self _ _) (by decide)
    rw [zmod_pow_eq MODULUS 19 ((MODULUS - 1) / q) he64,
      show (1 : ZMod MODULUS) = ((1 : Nat) : ZMod MODULUS) by norm_cast,
      ZMod.natCast_eq_natCast_iff] at hcon
    rcases hmem with h | h | h | h | h <;> subst h <;> exact absurd hcon (by decide)

/-! Evaluation lemmas for the additive and multiplicative operations. -/

lemma sub_eval (a b : Nat) (ha : a < MODULUS) (hb : b ≤ MODULUS) :
    Field.sub a b = if b ≤ a then a - b else MODULUS - b + a := by
  unfold Field.sub add32 sub32 U32 MODULUS at *
  split <;> omega

lemma add_eval (a b : Nat) (ha : a < MODULUS) (hb : b < MODULUS) :
    Field.add a b = (a + b) % MODULUS := by
  unfold Field.add Field.sub add32 sub32 U32 MODULUS at *
  split <;> omega

lemma mul_lt_u64 {a b : Nat} (ha : a < MODULUS) (hb : b < MODULUS) : a * b < U64 := by
  have h1 : a * b ≤ (MODULUS - 1) * (MODULUS - 1) := Nat.mul_le_mul (by omega) (by omega)
  have h2 : (MODULUS - 1) * (MODULUS - 1) < U64 := by decide
  omega

lemma mul_eval (a b : Nat) (ha : a < MODULUS) (hb : b < MODULUS) :
    Field.mul a b = a * b % MODULUS := by
  unfold Field.mul
  rw [Nat.mod_eq_of_lt (mul_lt_u64 ha hb)]

lemma mul_lt (a b : Nat) : Field.mul a b < MODULUS := by
  unfold Field.mul
  exact Nat.mod_lt _ (by decide)

/-! Correctness of the square and multiply loop of Field::pow. -/

lemma powAux_spec : ∀ n e, e ≤ n → ∀ base result, base < MODULUS → result < MODULUS →
    Field.powAux base e result = result * base ^ e % MODULUS := by
  intro n
  induction n with
  | zero =>
    intro e he base result hb hr
    have h0 : e = 0 := by omega
    subst h0
    rw [Field.powAux]
    norm_num [Nat.mod_eq_of_lt hr]
  | succ n ih =>
    intro e he base result hb hr
    by_cases h0 : e = 0
    · subst h0
      rw [Field.powAux]
      norm_num [Nat.mod_eq_of_lt hr]
    · by_cases hpar : e % 2 = 0
      · have h2 : 2 * (e / 2) = e := by omega
        have hle : e / 2 ≤ n := by omega
        rw [Field.powAux, dif_neg h0, if_pos hpar]
        rw [ih (e / 2) hle (Field.mul base base) result (mul_lt base base) hr]
        have hcong : result * Field.mul base base ^ (e / 2) ≡
            result * (base * base) ^ (e / 2) [MOD MODULUS] := by
          rw [mul_eval base base hb hb]
          exact Nat.ModEq.mul_left result ((Nat.mod_modEq (base * base) MODULUS).pow (e / 2))
        rw [hcong, ← pow_two, ← pow_mul, h2]
      · have h2 : e - 1 + 1 = e := by omega
        have hle : e - 1 ≤ n := by omega
        rw [Field.powAux, dif_neg h0, if_neg hpar]
        rw [ih (e - 1) hle base (Field.mul result base) hb (mul_lt result base)]
        have hcong : Field.mul result base * base ^ (e - 1) ≡
            result * base * base ^ (e - 1) [MOD MODULUS] := by
          rw [mul_eval result base hr hb]
          exact Nat.ModEq.mul_right (base ^ (e - 1)) (Nat.mod_modEq (result * base) MODULUS)
        rw [hcong, mul_assoc, ← pow_succ', h2]

lemma pow_eval (a e : Nat) (ha : a < MODULUS) : Field.pow a e = a ^ e % MODULUS := by
  unfold Field.pow
  rw [powAux_spec e e le_rfl a 1 ha (by decide), one_mul]

lemma pow_lt (a e : Nat) (ha : a < MODULUS) : Field.pow a e < MODULUS := by
  rw [pow_eval a e ha]
  exact Nat.mod_lt _ (by decide)

/-!
Analysis of the extended Euclidean loop of Field::inv.  invLoopZ is the
same recursion over exact integers (no 32 bit wrapping); invRangeChk runs
the loop and checks that every signed value the body computes (the stored
coefficients x0 and x1, the quotient q, the product q * x1 and the
difference x0 - q * x1) has magnitude at most 2146959360 = (MODULUS-1)/2,
which is below 2^31, so none of the i32 operations of the source
overflows.
-/

def invLoopZ (x0 x1 : Int) (a1 a2 q : Nat) : Int × Nat :=
  if h : a2 = 0 then (x1, a1)
  else invLoopZ x1 (x0 - (q : Int) * x1) a2 (a1 - a1 / a2 * a2) (a1 / a2)
termination_by a2
decreasing_by
  have h1 := Nat.div_add_mod a1 a2
  have h2 := Nat.mod_lt a1 (Nat.pos_of_ne_zero h)
  have h3 : a1 / a2 * a2 = a2 * (a1 / a2) := Nat.mul_comm _ _
  omega

def invRangeChk (x0 x1 : Int) (a1 a2 q : Nat) : Bool :=
  if h : a2 = 0 then true
  else
    decide (x0.natAbs ≤ 2146959360) && decide (x1.natAbs ≤ 2146959360) &&
    decide (q ≤ 2146959360) && decide (((q : Int) * x1).natAbs ≤ 2146959360) &&
    decide ((x0 - (q : Int) * x1).natAbs ≤ 2146959360) &&
    invRangeChk x1 (x0 - (q : Int) * x1) a2 (a1 - a1 / a2 * a2) (a1 / a2)
termination_by a2
decreasing_by
  have h1 := Nat.div_add_mod a1 a2
  have h2 := Nat.mod_lt a1 (Nat.pos_of_ne_zero h)
  have h3 : a1 / a2 * a2 = a2 * (a1 / a2) := Nat.mul_comm _ _
  omega

/-! One step unfolding lemmas for the three loop functions. -/

lemma invLoop_zero (x0 x1 : Int) (a1 q : Nat) : Field.invLoop x0 x1 a1 0 q = (x1, a1) := by
  rw [Field.invLoop]
  rfl

lemma invLoop_step (x0 x1 : Int) (a1 a2 q : Nat) (h : a2 ≠ 0) :
    Field.invLoop x0 x1 a1 a2 q =
      Field.invLoop x1 (wrap32 (x0 - wrap32 (u32AsI32 q * x1))) a2 (a1 - a1 / a2 * a2) (a1 / a2) := by
  rw [Field.invLoop, dif_neg h]

lemma invLoopZ_zero (x0 x1 : Int) (a1 q : Nat) : invLoopZ x0 x1 a1 0 q = (x1, a1) := by
  rw [invLoopZ]
  rfl

lemma invLoopZ_step (x0 x1 : Int) (a1 a2 q : Nat) (h : a2 ≠ 0) :
    invLoopZ x0 x1 a1 a2 q =
      invLoopZ x1 (x0 - (q : Int) * x1) a2 (a1 - a1 / a2 * a2) (a1 / a2) := by
  rw [invLoopZ, dif_neg h]

lemma invRangeChk_zero (x0 x1 : Int) (a1 q : Nat) : invRangeChk x0 x1 a1 0 q = true := by
  rw [invRangeChk]
  rfl

lemma invRangeChk_step (x0 x1 : Int) (a1 a2 q : Nat) (h : a2 ≠ 0) :
    invRangeChk x0 x1 a1 a2 q =
      (decide (x0.natAbs ≤ 2146959360) && decide (x1.natAbs ≤ 2146959360) &&
       decide (q ≤ 2146959360) && decide (((q : Int) * x1).natAbs ≤ 2146959360) &&
       decide ((x0 - (q : Int) * x1).natAbs ≤ 2146959360) &&
       invRangeChk x1 (x0 - (q : Int) * x1) a2 (a1 - a1 / a2 * a2) (a1 / a2)) := by
  rw [invRangeChk, dif_neg h]

/-! Facts about the 32 bit wrapping operations. -/

lemma wrap32_eq_self {z : Int} (h1 : -2147483648 ≤ z) (h2 : z ≤ 2147483647) : wrap32 z = z := by
  unfold wrap32
  omega

lemma wrap32_congr {z w : Int} (h : z % 4294967296 = w % 4294967296) : wrap32 z = wrap32 w := by
  unfold wrap32
  omega

lemma u32AsI32_mod (q : Nat) : u32AsI32 q % 4294967296 = (q : Int) % 4294967296 := by
  unfold u32AsI32 wrap32
  omega

lemma wrap32_mul_cast (q : Nat) (x : Int) : wrap32 (u32AsI32 q * x) = wrap32 ((q : Int) * x) := by
  apply wrap32_congr
  rw [Int.mul_emod, u32AsI32_mod, ← Int.mul_emod]

/-- If the exact values of the product q * x1 and of the difference
x0 - q * x1 are small, then the wrapping i32 computation of
x0 - (q as i32) * x1 returns the exact difference. -/
lemma invStep_wrap_eq (x0 x1 : Int) (q : Nat)
    (hprod : ((q : Int) * x1).natAbs ≤ 2146959360)
    (hy : (x0 - (q : Int) * x1).natAbs ≤ 2146959360) :
    wrap32 (x0 - wrap32 (u32AsI32 q * x1)) = x0 - (q : Int) * x1 := by
  have ht1 : -2147483648 ≤ (q : Int) * x1 := by omega
  have ht2 : (q : Int) * x1 ≤ 2147483647 := by omega
  rw [wrap32_mul_cast, wrap32_eq_self ht1 ht2]
  exact wrap32_eq_self (by omega) (by omega)

/-! Sign bookkeeping for the Bezout coefficients. -/

lemma natAbs_sub_mul {x y : Int} (c : Nat) (h : x * y ≤ 0) :
    (x - (c : Int) * y).natAbs = x.natAbs + c * y.natAbs := by
  have habs : ((c : Int) * y).natAbs = c * y.natAbs := by
    rw [Int.natAbs_mul, Int.natAbs_ofNat]
  rcases mul_nonpos_iff.mp h with ⟨hx, hyn⟩ | ⟨hx, hyn⟩
  · have ht : (c : Int) * y ≤ 0 := mul_nonpos_of_nonneg_of_nonpos (Int.natCast_nonneg c) hyn
    omega
  · have ht : 0 ≤ (c : Int) * y := mul_nonneg (Int.natCast_nonneg c) hyn
    omega

lemma prod_abs_le {x0 x1 y : Int} (q : Nat) (h01 : x0 * x1 ≤ 0) (h1y : x1 * y ≤ 0)
    (hqx : (q : Int) * x1 = x0 - y)
    (hx0 : x0.natAbs ≤ 2146959360) (hy : y.natAbs ≤ 2146959360) :
    ((q : Int) * x1).natAbs ≤ 2146959360 := by
  rcases lt_trichotomy x1 0 with hx1 | hx1 | hx1
  · have hx0n : 0 ≤ x0 := by
      rcases mul_nonpos_iff.mp h01 with ⟨h, _⟩ | ⟨_, h⟩
      · exact h
      · omega
    have hyn : 0 ≤ y := by
      rcases mul_nonpos_iff.mp h1y with ⟨h, _⟩ | ⟨_, h⟩
      · omega
      · exact h
    omega
  · subst hx1
    simp
  · have hx0n : x0 ≤ 0 := by
      rcases mul_nonpos_iff.mp h01 with ⟨_, h⟩ | ⟨h, _⟩
      · omega
      · exact h
    have hyn : y ≤ 0 := by
      rcases mul_nonpos_iff.mp h1y with ⟨_, h⟩ | ⟨h, _⟩
      · exact h
      · omega
    omega

/-- Invariant at the top of the extended Euclidean loop when inverting a
canonical value a.  Writing y for the pending coefficient x0 - q * x1
that the body computes next: x1 and y are the Bezout coefficients of the
current remainders a1 and a2; the coefficient magnitudes are tied to the
remainders by an exact identity summing to MODULUS; consecutive
coefficients have opposite (or zero) signs; the gcd of the remainder pair
is the gcd of a and MODULUS; and the stored coefficients and the pending
quotient are small. -/
def EuclidInv (a : Nat) (x0 x1 : Int) (a1 a2 q : Nat) : Prop :=
  (a : Int) * x1 ≡ (a1 : Int) [ZMOD (MODULUS : Int)] ∧
  (a : Int) * (x0 - (q : Int) * x1) ≡ (a2 : Int) [ZMOD (MODULUS : Int)] ∧
  (x0 - (q : Int) * x1).natAbs * a1 + x1.natAbs * a2 = MODULUS ∧
  x1 * (x0 - (q : Int) * x1) ≤ 0 ∧
  x0 * x1 ≤ 0 ∧
  Nat.gcd a1 a2 = Nat.gcd a MODULUS ∧
  x0.natAbs ≤ 2146959360 ∧
  x1.natAbs ≤ 2146959360 ∧
  a1 ≤ MODULUS ∧
  q * a1 ≤ MODULUS

/-- Conclusions drawn from a loop state: the wrapping loop agrees with
the exact integer loop, the range checker accepts, and the exact loop
returns the gcd of a and MODULUS together with a small Bezout
coefficient for it. -/
def InvConc (a : Nat) (x0 x1 : Int) (a1 a2 q : Nat) : Prop :=
  Field.invLoop x0 x1 a1 a2 q = invLoopZ x0 x1 a1 a2 q ∧
  invRangeChk x0 x1 a1 a2 q = true ∧
  (invLoopZ x0 x1 a1 a2 q).2 = Nat.gcd a MODULUS ∧
  (a : Int) * (invLoopZ x0 x1 a1 a2 q).1 ≡ ((invLoopZ x0 x1 a1 a2 q).2 : Int)
    [ZMOD (MODULUS : Int)] ∧
  (invLoopZ x0 x1 a1 a2 q).1.natAbs ≤ 2146959360

lemma invConc_exit (a : Nat) (x0 x1 : Int) (a1 q : Nat)
    (hinv : EuclidInv a x0 x1 a1 0 q) : InvConc a x0 x1 a1 0 q := by
  obtain ⟨h1, _, _, _, _, h6, _, h8, _, _⟩ := hinv
  unfold InvConc
  rw [invLoop_zero, invLoopZ_zero, invRangeChk_zero]
  refine ⟨rfl, rfl, ?_, ?_, ?_⟩
  · simpa using h6
  · exact h1
  · exact h8

lemma invLoop_master (a : Nat) : ∀ n a2, a2 ≤ n → ∀ (x0 x1 : Int) (a1 q : Nat),
    a2 < a1 → EuclidInv a x0 x1 a1 a2 q → InvConc a x0 x1 a1 a2 q := by
  intro n
  induction n with
  | zero =>
    intro a2 hn x0 x1 a1 q hlt hinv
    have h0 : a2 = 0 := by omega
    subst h0
    exact invConc_exit a x0 x1 a1 q hinv
  | succ n ih =>
    intro a2 hn x0 x1 a1 q hlt hinv
    by_cases h0 : a2 = 0
    · subst h0
      exact invConc_exit a x0 x1 a1 q hinv
    · obtain ⟨hc1, hc2, hc3, hc4, hc5, hc6, hc7, hc8, hc9, hc10⟩ := hinv
      have hM : MODULUS = 4293918721 := rfl
      have ha2pos : 1 ≤ a2 := Nat.pos_of_ne_zero h0
      have ha1two : 2 ≤ a1 := by omega
      -- magnitude of the pending coefficient y = x0 - q * x1
      have hyB : (x0 - (q : Int) * x1).natAbs ≤ 2146959360 := by
        have h1 : (x0 - (q : Int) * x1).natAbs * a1 ≤ MODULUS :=
          le_of_le_of_eq (Nat.le_add_right _ _) hc3
        have h2 : (x0 - (q : Int) * x1).natAbs * 2 ≤ (x0 - (q : Int) * x1).natAbs * a1 :=
          Nat.mul_le_mul_left _ ha1two
        have h3 : (x0 - (q : Int) * x1).natAbs * 2 ≤ MODULUS := le_trans h2 h1
        omega
      -- magnitude of the stored quotient
      have hqB : q ≤ 2146959360 := by
        have h2 : q * 2 ≤ q * a1 := Nat.mul_le_mul_left _ ha1two
        have h3 : q * 2 ≤ MODULUS := le_trans h2 hc10
        omega
      -- magnitude of the product q * x1
      have hprodB : ((q : Int) * x1).natAbs ≤ 2146959360 := by
        refine prod_abs_le q hc5 hc4 (by ring) hc7 hyB
      -- the wrapping i32 computation of the body is exact
      have hwrap : wrap32 (x0 - wrap32 (u32AsI32 q * x1)) = x0 - (q : Int) * x1 :=
        invStep_wrap_eq x0 x1 q hprodB hyB
      -- arithmetic facts about the new remainder and quotient
      have hdm := Nat.div_add_mod a1 a2
      have hcomm : a1 / a2 * a2 = a2 * (a1 / a2) := Nat.mul_comm _ _
      have hm : a1 - a1 / a2 * a2 = a1 % a2 := by omega
      have hq'a2 : a1 / a2 * a2 ≤ a1 := Nat.div_mul_le_self a1 a2
      have hlt' : a1 - a1 / a2 * a2 < a2 := by
        have := Nat.mod_lt a1 ha2pos
        omega
      have hfuel : a1 - a1 / a2 * a2 ≤ n := by omega
      -- the invariant holds for the next state
      have hinv' : EuclidInv a x1 (x0 - (q : Int) * x1) a2 (a1 - a1 / a2 * a2) (a1 / a2) := by
        refine ⟨hc2, ?_, ?_, ?_, hc4, ?_, hc8, hyB, by omega, le_trans hq'a2 hc9⟩
        · -- new congruence for the pending coefficient
          have hcast : ((a1 - a1 / a2 * a2 : Nat) : Int) =
              (a1 : Int) - ((a1 / a2 : Nat) : Int) * (a2 : Int) := by
            push_cast [hq'a2]
            ring
          have heq : (a : Int) * (x1 - ((a1 / a2 : Nat) : Int) * (x0 - (q : Int) * x1)) =
              (a : Int) * x1 - ((a1 / a2 : Nat) : Int) * ((a : Int) * (x0 - (q : Int) * x1)) := by
            ring
          rw [heq, hcast]
          exact hc1.sub (hc2.mul_left _)
        · -- the magnitude identity for the next state
          have habs : (x1 - ((a1 / a2 : Nat) : Int) * (x0 - (q : Int) * x1)).natAbs =
              x1.natAbs + a1 / a2 * (x0 - (q : Int) * x1).natAbs :=
            natAbs_sub_mul (a1 / a2) hc4
          rw [habs]
          -- from hc3 with a1 = a2 * (a1 / a2) + (a1 - a1 / a2 * a2)
          have hsplit : a1 = a2 * (a1 / a2) + (a1 - a1 / a2 * a2) := by omega
          rw [hsplit] at hc3
          ring_nf at hc3 ⊢
          linarith [hc3]
        · -- sign of the next pending coefficient
          have hrw : (x0 - (q : Int) * x1) * (x1 - ((a1 / a2 : Nat) : Int) * (x0 - (q : Int) * x1)) =
              x1 * (x0 - (q : Int) * x1) -
                ((a1 / a2 : Nat) : Int) * ((x0 - (q : Int) * x1) * (x0 - (q : Int) * x1)) := by
            ring
          rw [hrw]
          have hsq : 0 ≤ ((a1 / a2 : Nat) : Int) * ((x0 - (q : Int) * x1) * (x0 - (q : Int) * x1)) :=
            mul_nonneg (Int.natCast_nonneg _) (mul_self_nonneg _)
          linarith [hc4]
        · -- gcd is preserved
          rw [hm, Nat.gcd_comm a2 (a1 % a2), ← Nat.gcd_rec a2 a1, Nat.gcd_comm a2 a1]
          exact hc6
      have hconc := ih (a1 - a1 / a2 * a2) hfuel x1 (x0 - (q : Int) * x1) a2 (a1 / a2) hlt' hinv'
      obtain ⟨g1, g2, g3, g4, g5⟩ := hconc
      refine ⟨?_, ?_, ?_, ?_, ?_⟩
      · rw [invLoop_step x0 x1 a1 a2 q h0, hwrap, invLoopZ_step x0 x1 a1 a2 q h0]
        exact g1
      · rw [invRangeChk_step x0 x1 a1 a2 q h0]
        simp only [Bool.and_eq_true, decide_eq_true_eq, and_assoc]
        exact ⟨hc7, hc8, hqB, hprodB, hyB, g2⟩
      · rw [invLoopZ_step x0 x1 a1 a2 q h0]
        exact g3
      · rw [invLoopZ_step x0 x1 a1 a2 q h0]
        exact g4
      · rw [invLoopZ_step x0 x1 a1 a2 q h0]
        exact g5

/-- The first iteration of the loop of Field::inv, from the initial
state (x0, x1, a1, a2, q) = (0, 1, a, MODULUS, 0), swaps the pairs and
reaches the state (1, 0, MODULUS, a, 0). -/
lemma invLoop_first_step (a : Nat) (ha : a < MODULUS) :
    Field.invLoop 0 1 a MODULUS 0 = Field.invLoop 1 0 MODULUS a 0 ∧
    invLoopZ 0 1 a MODULUS 0 = invLoopZ 1 0 MODULUS a 0 ∧
    invRangeChk 0 1 a MODULUS 0 = invRangeChk 1 0 MODULUS a 0 := by
  have hM0 : MODULUS ≠ 0 := by decide
  have hdiv : a / MODULUS = 0 := Nat.div_eq_of_lt ha
  have harg : a - a / MODULUS * MODULUS = a := by rw [hdiv]; simp
  have hx2 : wrap32 ((0 : Int) - wrap32 (u32AsI32 0 * 1)) = 0 := by
    norm_num [u32AsI32, wrap32]
  refine ⟨?_, ?_, ?_⟩
  · rw [invLoop_step 0 1 a MODULUS 0 hM0, hx2, harg, hdiv]
  · rw [invLoopZ_step 0 1 a MODULUS 0 hM0, harg, hdiv]
    norm_num
  · rw [invRangeChk_step 0 1 a MODULUS 0 hM0, harg, hdiv]
    norm_num

/-- Main specification of Field::inv for canonical input: the result is
canonical, a * inv a is congruent to gcd a MODULUS modulo MODULUS, and
every signed intermediate of the loop stays within the checked range. -/
lemma inv_spec (a : Nat) (ha : a < MODULUS) :
    Field.inv a < MODULUS ∧
    a * Field.inv a % MODULUS = Nat.gcd a MODULUS % MODULUS ∧
    invRangeChk 0 1 a MODULUS 0 = true := by
  obtain ⟨e1, e2, e3⟩ := invLoop_first_step a ha
  have hinv1 : EuclidInv a 1 0 MODULUS a 0 := by
    refine ⟨?_, ?_, ?_, ?_, ?_, Nat.gcd_comm _ _, ?_, ?_, le_rfl, ?_⟩
    · simp [Int.ModEq, Int.emod_self]
    · simp [Int.ModEq]
    · norm_num
    · norm_num
    · norm_num
    · norm_num
    · norm_num
    · norm_num
  have hconc := invLoop_master a a a le_rfl 1 0 MODULUS 0 ha hinv1
  obtain ⟨g1, g2, g3, g4, g5⟩ := hconc
  have hchk : invRangeChk 0 1 a MODULUS 0 = true := by rw [e3]; exact g2
  rcases hres : invLoopZ 1 0 MODULUS a 0 with ⟨xf, af⟩
  rw [hres] at g3 g4 g5
  dsimp only at g3 g4 g5
  subst g3
  have hval : Field.inv a = if xf < 0 then add32 MODULUS (i32AsU32 xf) else xf.toNat := by
    have hfull : Field.invLoop 0 1 a MODULUS 0 = (xf, Nat.gcd a MODULUS) := by
      rw [e1, g1, hres]
    unfold Field.inv
    rw [hfull]
  have hM : MODULUS = 4293918721 := rfl
  by_cases hneg : xf < 0
  · rw [if_pos hneg] at hval
    have hv2 : add32 MODULUS (i32AsU32 xf) = (xf + (MODULUS : Int)).toNat := by
      unfold add32 i32AsU32 U32
      rw [hM]
      omega
    rw [hval, hv2]
    have hcast2 : (((xf + (MODULUS : Int)).toNat : Nat) : Int) = xf + (MODULUS : Int) := by
      omega
    refine ⟨by omega, ?_, hchk⟩
    have hmod : (a : Int) * (xf + (MODULUS : Int)) ≡ (Nat.gcd a MODULUS : Int)
        [ZMOD (MODULUS : Int)] := by
      have h1 : (a : Int) * (xf + (MODULUS : Int)) =
          (a : Int) * xf + (MODULUS : Int) * (a : Int) := by ring
      have h3 : ((a : Int) * xf + (MODULUS : Int) * (a : Int)) ≡ (a : Int) * xf
          [ZMOD (MODULUS : Int)] := by
        unfold Int.ModEq
        exact Int.add_mul_emod_self_left _ _ _
      rw [h1]
      exact h3.trans g4
    have hfin : ((a * (xf + (MODULUS : Int)).toNat % MODULUS : Nat) : Int) =
        ((Nat.gcd a MODULUS % MODULUS : Nat) : Int) := by
      rw [Int.natCast_mod, Int.natCast_mod, Nat.cast_mul, hcast2]
      exact hmod
    exact Nat.cast_inj.mp hfin
  · rw [if_neg hneg] at hval
    have hcast2 : ((xf.toNat : Nat) : Int) = xf := Int.toNat_of_nonneg (le_of_not_lt hneg)
    rw [hval]
    refine ⟨by omega, ?_, hchk⟩
    have hfin : ((a * xf.toNat % MODULUS : Nat) : Int) =
        ((Nat.gcd a MODULUS % MODULUS : Nat) : Int) := by
      rw [Int.natCast_mod, Int.natCast_mod, Nat.cast_mul, hcast2]
      exact g4
    exact Nat.cast_inj.mp hfin

/-- Direct evaluation: the loop on input 0 terminates after two
iterations with coefficient 0, so inv 0 = 0. -/
lemma inv_zero_eval : Field.inv 0 = 0 := by
  have hM0 : MODULUS ≠ 0 := by decide
  have h1 : Field.invLoop 0 1 0 MODULUS 0 = Field.invLoop 1 0 MODULUS 0 0 := by
    rw [invLoop_step 0 1 0 MODULUS 0 hM0]
    norm_num [u32AsI32, wrap32]
  have h2 : Field.invLoop 1 0 MODULUS 0 0 = (0, MODULUS) := invLoop_zero 1 0 MODULUS 0
  unfold Field.inv
  rw [h1, h2]
  norm_num

lemma div_zero_eval (a : Nat) : Field.div a 0 = 0 := by
  unfold Field.div
  rw [inv_zero_eval]
  unfold Field.mul
  norm_num

lemma gcd_modulus_one (a : Nat) (h0 : 0 < a) (ha : a < MODULUS) : Nat.gcd a MODULUS = 1 := by
  have hnd : ¬ MODULUS ∣ a := fun hdvd => absurd (Nat.le_of_dvd h0 hdvd) (by omega)
  have hcop : Nat.Coprime MODULUS a := (Nat.Prime.coprime_iff_not_dvd modulus_prime).mpr hnd
  rw [Nat.gcd_comm]
  exact hcop

lemma inv_lt (a : Nat) (ha : a < MODULUS) : Field.inv a < MODULUS := (inv_spec a ha).1

lemma inv_mul_one (a : Nat) (h0 : 0 < a) (ha : a < MODULUS) :
    a * Field.inv a % MODULUS = 1 := by
  have h := (inv_spec a ha).2.1
  rw [gcd_modulus_one a h0 ha] at h
  rw [h]
  decide

lemma add_lt_mod (a b : Nat) (ha : a < MODULUS) (hb : b < MODULUS) :
    Field.add a b < MODULUS := by
  rw [add_eval a b ha hb]
  exact Nat.mod_lt _ (by decide)

lemma sub_lt_mod (a b : Nat) (ha : a < MODULUS) (hb : b < MODULUS) :
    Field.sub a b < MODULUS := by
  rw [sub_eval a b ha (le_of_lt hb)]
  split <;> omega

lemma div_lt (a b : Nat) : Field.div a b < MODULUS := by
  unfold Field.div
  exact mul_lt a (Field.inv b)

lemma fromU32_lt (x : Nat) : Field.fromU32 x < MODULUS := by
  unfold Field.fromU32
  exact Nat.mod_lt x (by decide)

lemma inv_involution (a : Nat) (ha : a < MODULUS) : Field.inv (Field.inv a) = a := by
  by_cases h0 : a = 0
  · subst h0
    rw [inv_zero_eval, inv_zero_eval]
  · have hapos : 0 < a := Nat.pos_of_ne_zero h0
    have hb_lt : Field.inv a < MODULUS := inv_lt a ha
    have hab : a * Field.inv a % MODULUS = 1 := inv_mul_one a hapos ha
    have hbpos : 0 < Field.inv a := by
      rcases Nat.eq_zero_or_pos (Field.inv a) with h | h
      · rw [h] at hab
        simp at hab
      · exact h
    have hbinv : Field.inv a * Field.inv (Field.inv a) % MODULUS = 1 :=
      inv_mul_one (Field.inv a) hbpos hb_lt
    have hinvb_lt : Field.inv (Field.inv a) < MODULUS := inv_lt (Field.inv a) hb_lt
    have h1 : Field.inv a * Field.inv (Field.inv a) ≡ Field.inv a * a [MOD MODULUS] := by
      unfold Nat.ModEq
      rw [hbinv, Nat.mul_comm (Field.inv a) a, hab]
    have hcop : Nat.gcd MODULUS (Field.inv a) = 1 := by
      rw [Nat.gcd_comm]
      exact gcd_modulus_one (Field.inv a) hbpos hb_lt
    have h2 : Field.inv (Field.inv a) ≡ a [MOD MODULUS] :=
      Nat.ModEq.cancel_left_of_coprime hcop h1
    have h3 := h2
    unfold Nat.ModEq at h3
    rw [Nat.mod_eq_of_lt hinvb_lt, Nat.mod_eq_of_lt ha] at h3
    exact h3

/-! The claims. -/

/-- C1: for every canonical field element a with 0 < a < MODULUS,
mul (a, inv a) = 1 and mul (inv a, a) = 1: inv returns the multiplicative
inverse of every nonzero element. -/
theorem claim_C1_inverse_law (a : Nat) (h0 : 0 < a) (ha : a < MODULUS) :
    Field.mul a (Field.inv a) = 1 ∧ Field.mul (Field.inv a) a = 1 := by
  have hb := inv_lt a ha
  constructor
  · rw [mul_eval a (Field.inv a) ha hb]
    exact inv_mul_one a h0 ha
  · rw [mul_eval (Field.inv a) a hb ha, Nat.mul_comm]
    exact inv_mul_one a h0 ha

theorem claim_C1_witness : 0 < 2 ∧ 2 < MODULUS ∧
    (Field.mul 2 (Field.inv 2) = 1 ∧ Field.mul (Field.inv 2) 2 = 1) :=
  ⟨by decide, by decide, claim_C1_inverse_law 2 (by decide) (by decide)⟩

/-- C2: for canonical a, b, every operation (add, sub, mul, div, pow,
inv, and from u32 on any raw x) returns a stored representative in
[0, MODULUS). -/
theorem claim_C2_closure (a b x : Nat) (ha : a < MODULUS) (hb : b < MODULUS) :
    Field.add a b < MODULUS ∧ Field.sub a b < MODULUS ∧ Field.mul a b < MODULUS ∧
    Field.div a b < MODULUS ∧ Field.pow a b < MODULUS ∧ Field.inv a < MODULUS ∧
    Field.fromU32 x < MODULUS :=
  ⟨add_lt_mod a b ha hb, sub_lt_mod a b ha hb, mul_lt a b, div_lt a b,
   pow_lt a b ha, inv_lt a ha, fromU32_lt x⟩

theorem claim_C2_witness : 2 < MODULUS ∧ 3 < MODULUS ∧
    (Field.add 2 3 < MODULUS ∧ Field.sub 2 3 < MODULUS ∧ Field.mul 2 3 < MODULUS ∧
     Field.div 2 3 < MODULUS ∧ Field.pow 2 3 < MODULUS ∧ Field.inv 2 < MODULUS ∧
     Field.fromU32 5 < MODULUS) :=
  ⟨by decide, by decide, claim_C2_closure 2 3 5 (by decide) (by decide)⟩

/-- C3: sub (a, b) is a - b when a at least b and MODULUS - b + a
otherwise; add (a, b) is sub (a, MODULUS - b) and computes
(a + b) % MODULUS, including the edge case b = 0 with its non canonical
intermediate MODULUS - 0 = MODULUS, so that add (a, 0) = a. -/
theorem claim_C3_add_sub (a b : Nat) (ha : a < MODULUS) (hb : b < MODULUS) :
    (b ≤ a → Field.sub a b = a - b) ∧
    (a < b → Field.sub a b = MODULUS - b + a) ∧
    Field.add a b = Field.sub a (MODULUS - b) ∧
    Field.add a b = (a + b) % MODULUS ∧
    Field.add a 0 = a := by
  refine ⟨?_, ?_, ?_, ?_, ?_⟩
  · intro h
    rw [sub_eval a b ha (le_of_lt hb), if_pos h]
  · intro h
    rw [sub_eval a b ha (le_of_lt hb), if_neg (by omega)]
  · unfold Field.add
    have hs : sub32 MODULUS b = MODULUS - b := by
      unfold sub32 U32
      have hM : MODULUS = 4293918721 := rfl
      omega
    rw [hs]
  · exact add_eval a b ha hb
  · rw [add_eval a 0 ha (by decide), Nat.add_zero, Nat.mod_eq_of_lt ha]

theorem claim_C3_witness : 5 < MODULUS ∧ 7 < MODULUS ∧
    ((7 ≤ 5 → Field.sub 5 7 = 5 - 7) ∧
     (5 < 7 → Field.sub 5 7 = MODULUS - 7 + 5) ∧
     Field.add 5 7 = Field.sub 5 (MODULUS - 7) ∧
     Field.add 5 7 = (5 + 7) % MODULUS ∧
     Field.add 5 0 = 5) :=
  ⟨by decide, by decide, claim_C3_add_sub 5 7 (by decide) (by decide)⟩

/-- C4: for every canonical base a and canonical exponent e, pow (a, e)
is a ^ e mod MODULUS; in particular pow (a, 0) = 1 for every a including
0, pow (0, k) = 0 for k not 0, and pow (a, 1) = a. -/
theorem claim_C4_pow (a e : Nat) (ha : a < MODULUS) (he : e < MODULUS) :
    Field.pow a e = a ^ e % MODULUS ∧ Field.pow a 0 = 1 ∧
    (e ≠ 0 → Field.pow 0 e = 0) ∧ Field.pow a 1 = a := by
  refine ⟨pow_eval a e ha, ?_, ?_, ?_⟩
  · rw [pow_eval a 0 ha, pow_zero]
    decide
  · intro hne
    rw [pow_eval 0 e (by decide), zero_pow hne, Nat.zero_mod]
  · rw [pow_eval a 1 ha, pow_one, Nat.mod_eq_of_lt ha]

theorem claim_C4_witness : 2 < MODULUS ∧ 3 < MODULUS ∧
    (Field.pow 2 3 = 2 ^ 3 % MODULUS ∧ Field.pow 2 0 = 1 ∧
     (3 ≠ 0 → Field.pow 0 3 = 0) ∧ Field.pow 2 1 = 2) :=
  ⟨by decide, by decide, claim_C4_pow 2 3 (by decide) (by decide)⟩

/-- C5: for canonical a, b the 64 bit product a * b never overflows
(it is below 2^64), so mul (a, b) returns exactly (a * b) mod MODULUS. -/
theorem claim_C5_mul (a b : Nat) (ha : a < MODULUS) (hb : b < MODULUS) :
    a * b < U64 ∧ Field.mul a b = a * b % MODULUS :=
  ⟨mul_lt_u64 ha hb, mul_eval a b ha hb⟩

theorem claim_C5_witness : 3 < MODULUS ∧ 4 < MODULUS ∧
    (3 * 4 < U64 ∧ Field.mul 3 4 = 3 * 4 % MODULUS) :=
  ⟨by decide, by decide, claim_C5_mul 3 4 (by decide) (by decide)⟩

/-- C6: inv 0 = 0 and div (a, 0) = 0 for every canonical a: the two
mathematically undefined cases are resolved by returning 0, with no
failing or error path. -/
theorem claim_C6_zero_convention (a : Nat) (ha : a < MODULUS) :
    Field.inv 0 = 0 ∧ Field.div a 0 = 0 :=
  ⟨inv_zero_eval, div_zero_eval a⟩

theorem claim_C6_witness : 35 < MODULUS ∧ (Field.inv 0 = 0 ∧ Field.div 35 0 = 0) :=
  ⟨by decide, claim_C6_zero_convention 35 (by decide)⟩

/-- C7 counterexample: the claim asserts that the signed type used by
the loop (i32) covers magnitudes up to plus or minus MODULUS, but
MODULUS itself is outside the i32 range. -/
theorem claim_C7_counterexample : ¬ i32InRange (MODULUS : Int) := by
  unfold i32InRange MODULUS
  decide

/-- C7 (amended): throughout the extended Euclidean loop of inv on a
canonical input, every signed coefficient intermediate (x0, x1, the
quotient q, the product q * x1 and the difference x2 = x0 - q * x1) has
magnitude at most 2146959360 = (MODULUS - 1) / 2, which lies inside the
i32 range, so the 32 bit signed arithmetic never overflows; and the
final wrapping addition of MODULUS to a negative coefficient lands the
result in [0, MODULUS). -/
theorem claim_C7_range (a : Nat) (ha : a < MODULUS) :
    invRangeChk 0 1 a MODULUS 0 = true ∧
    (∀ z : Int, z.natAbs ≤ 2146959360 → i32InRange z) ∧
    Field.inv a < MODULUS := by
  refine ⟨(inv_spec a ha).2.2, ?_, (inv_spec a ha).1⟩
  intro z hz
  unfold i32InRange
  omega

theorem claim_C7_witness : 2 < MODULUS ∧
    (invRangeChk 0 1 2 MODULUS 0 = true ∧
     (∀ z : Int, z.natAbs ≤ 2146959360 → i32InRange z) ∧
     Field.inv 2 < MODULUS) :=
  ⟨by decide, claim_C7_range 2 (by decide)⟩

/-- C8: for every raw 32 bit x, to u32 (from u32 x) = x mod MODULUS;
from u32 is total and always returns a canonical value, and to u32
returns the stored representative unchanged. -/
theorem claim_C8_roundtrip (x : Nat) (hx : x < U32) :
    Field.toU32 (Field.fromU32 x) = x % MODULUS ∧ Field.fromU32 x < MODULUS ∧
    (∀ f : Nat, Field.toU32 f = f) :=
  ⟨rfl, fromU32_lt x, fun _ => rfl⟩

theorem claim_C8_witness : 4294967295 < U32 ∧
    (Field.toU32 (Field.fromU32 4294967295) = 4294967295 % MODULUS ∧
     Field.fromU32 4294967295 < MODULUS ∧ (∀ f : Nat, Field.toU32 f = f)) :=
  ⟨by decide, claim_C8_roundtrip 4294967295 (by decide)⟩

/-- C9: equality of a field element against a raw u32 compares the
stored representative literally with no reduction of the literal, so for
any literal x at least MODULUS the comparison is false for every
canonical f. -/
theorem claim_C9_eq_literal (f x : Nat) (hf : f < MODULUS) :
    (Field.eqU32 f x = true ↔ f = x) ∧ (MODULUS ≤ x → Field.eqU32 f x = false) := by
  unfold Field.eqU32
  constructor
  · exact beq_iff_eq
  · intro hx
    rw [beq_eq_false_iff_ne]
    omega

theorem claim_C9_witness : 1 < MODULUS ∧
    ((Field.eqU32 1 1 = true ↔ 1 = 1) ∧ (MODULUS ≤ 1 → Field.eqU32 1 1 = false)) :=
  ⟨by decide, claim_C9_eq_literal 1 1 (by decide)⟩

/-- C10: inv is an involution on canonical elements: for every a in
[0, MODULUS), including 0, inv (inv a) = a. -/
theorem claim_C10_involution (a : Nat) (ha : a < MODULUS) :
    Field.inv (Field.inv a) = a :=
  inv_involution a ha

theorem claim_C10_witness : 4 < MODULUS ∧ Field.inv (Field.inv 4) = 4 :=
  ⟨by decide, claim_C10_involution 4 (by decide)⟩

end Prio
